import Mathlib

/-!
Shallow embedding of the message-storage API (services.py, repositories.py,
models.py) and proofs of its specification claims.

Conventions of the embedding:
* Strings are handled as `List Char`; case conversion models Python's
  lower-casing / SQLite's `lower()` on the ASCII range (all fixed forbidden
  words and mask tokens are ASCII).
* The regex `\b(tonto|idiota)\b` with `re.IGNORECASE` used by
  `MessageService.process_message` is embedded as a left-to-right scan
  (`censorScan`) that attempts a case-insensitive whole-word match of each
  forbidden word at every position not preceded by a word character.
* The database is a list of rows; SQLAlchemy query operations become
  filter / sort / drop / take on that list.
-/

namespace MsgApi

/-- ASCII lower-casing, the model of Python's `str.lower` / SQLite's `lower()`
on the characters relevant to this program. -/
def lowerChar (c : Char) : Char :=
  if c.isUpper then Char.ofNat (c.toNat + 32) else c

/-- Word characters for the regex `\b` boundary (`[A-Za-z0-9_]` on ASCII). -/
def isWordChar (c : Char) : Bool := c.isAlphanum || c = '_'

/-- The fixed forbidden-word set `{"tonto", "idiota"}` of `MessageService`. -/
def badWords : List (List Char) := [String.toList "tonto", String.toList "idiota"]

/-- Case-insensitive literal match of `w` against a prefix of `cs`;
returns the remaining characters on success. -/
def matchCI : List Char → List Char → Option (List Char)
  | [], cs => some cs
  | _ :: _, [] => none
  | a :: ws, c :: cs => if lowerChar c = a then matchCI ws cs else none

/-- Right word boundary: the next character (if any) is not a word character. -/
def boundaryOk : List Char → Bool
  | [] => true
  | c :: _ => !isWordChar c

/-- Try each forbidden word at the current position, requiring a right word
boundary after the match (the left boundary is handled by the caller). -/
def firstMatch (ws : List (List Char)) (cs : List Char) : Option (List Char × List Char) :=
  match ws with
  | [] => none
  | w :: rest =>
    match matchCI w cs with
    | some r => if boundaryOk r then some (w, r) else firstMatch rest cs
    | none => firstMatch rest cs

/-- Left-to-right censoring scan embedding `pattern.sub("***", ...)` together
with `pattern.findall(...)`: `skip` counts characters of a match still to be
consumed, `prevW` records whether the previous character was a word character
(false at the start of the string).  Returns the censored characters and the
list of matched (lower-cased) forbidden words in match order. -/
def censorScan : Nat → Bool → List Char → List Char × List (List Char)
  | _, _, [] => ([], [])
  | skip+1, _, _ :: rest => censorScan skip true rest
  | 0, prevW, c :: rest =>
    if prevW then
      let r := censorScan 0 (isWordChar c) rest
      (c :: r.1, r.2)
    else
      match firstMatch badWords (c :: rest) with
      | some (w, _) =>
        let r := censorScan (w.length - 1) true rest
        ('*' :: '*' :: '*' :: r.1, w :: r.2)
      | none =>
        let r := censorScan 0 (isWordChar c) rest
        (c :: r.1, r.2)

/-- Censored content computed by `process_message`. -/
def censorContent (s : String) : String := String.mk (censorScan 0 false s.toList).1

/-- The matched forbidden words (`pattern.findall`, lower-cased), in order. -/
def foundWords (s : String) : List String :=
  ((censorScan 0 false s.toList).2).map (fun w => String.mk w)

/-- Lexicographic comparison of character lists by code point. -/
def listLe : List Char → List Char → Bool
  | [], _ => true
  | _ :: _, [] => false
  | a :: x, b :: y => if a = b then listLe x y else decide (a < b)

/-- The string order used by Python's `sorted`: lexicographic by code point. -/
def pyStrLe (a b : String) : Prop := listLe a.toList b.toList = true

instance : DecidableRel pyStrLe := fun a b => instDecidableEqBool (listLe a.toList b.toList) true

/-- Model of Python's `sorted` on strings. -/
def sortStrs (l : List String) : List String := List.insertionSort pyStrLe l

/-- The `metadata` object produced by `process_message`. -/
structure Metadata where
  length : Nat
  bad_words : List String
deriving DecidableEq, Repr

/-! ## Specification-side description of censorship

The spec describes censorship by word boundaries: a *whole-word occurrence* of
a forbidden word is a maximal run of word characters whose lower-casing equals
that word.  We decompose a string into maximal runs of characters of equal
word-character class and mask exactly the runs equal (case-insensitively) to a
forbidden word.  These definitions are written from the spec's words and are
compared with the scan `censorScan` taken from the code. -/

/-- Auxiliary for `chunks`: given the current character and the remaining
characters, the current maximal same-class run and the chunks after it. -/
def chunksAux (c : Char) : List Char → List Char × List (List Char)
  | [] => ([c], [])
  | d :: ds =>
    let r := chunksAux d ds
    if isWordChar c == isWordChar d then (c :: r.1, r.2) else ([c], r.1 :: r.2)

/-- Decomposition of a string into maximal runs of characters of equal
word-character class. -/
def chunks : List Char → List (List Char)
  | [] => []
  | c :: cs => (chunksAux c cs).1 :: (chunksAux c cs).2

/-- The fixed mask token `***`. -/
def maskTok : List Char := ['*', '*', '*']

/-- Lower-case a chunk. -/
def lowerChunk (ch : List Char) : List Char := ch.map lowerChar

/-- A chunk is censored iff its lower-casing is a forbidden word. -/
def isBadChunk (ch : List Char) : Bool := decide (lowerChunk ch ∈ badWords)

/-- Specification-side censorship: mask exactly the maximal word runs that
equal a forbidden word case-insensitively. -/
def censorSpec (cs : List Char) : List Char :=
  ((chunks cs).map (fun ch => if isBadChunk ch then maskTok else ch)).flatten

/-- Specification-side found words: the lower-casings of the masked runs,
in order of occurrence. -/
def foundSpec (cs : List Char) : List (List Char) :=
  (chunks cs).filterMap (fun ch => if isBadChunk ch then some (lowerChunk ch) else none)

/-- A word occurs as a whole word (case-insensitively) in `s`: some maximal
word run of `s` lower-cases to it. -/
def OccursWholeWordCI (w : String) (s : String) : Prop :=
  ∃ ch ∈ chunks s.toList, lowerChunk ch = w.toList

/-! ## Datetimes

A structured time value, modelling `datetime.datetime`; `utcOffsetMinutes`
is `none` for a naive datetime.  `fromisoformat` below models the fragment of
`datetime.fromisoformat` (strict ISO-8601 as produced by `isoformat()`,
with no support for a trailing `Z`) that `_parse_iso_to_dt` relies on. -/

structure DateTime where
  year : Nat
  month : Nat
  day : Nat
  hour : Nat
  minute : Nat
  second : Nat
  microsecond : Nat
  utcOffsetMinutes : Option Int
deriving DecidableEq, Repr

/-- Numeric value of a decimal digit character. -/
def digitVal (c : Char) : Nat := c.toNat - 48

/-- Two decimal digits. -/
def twoDigits (a b : Char) : Option Nat :=
  if a.isDigit && b.isDigit then some (10 * digitVal a + digitVal b) else none

/-- Gregorian leap year. -/
def isLeap (y : Nat) : Bool := y % 4 == 0 && (y % 100 != 0 || y % 400 == 0)

/-- Days in a month. -/
def daysInMonth (y m : Nat) : Nat :=
  if m = 2 then (if isLeap y then 29 else 28)
  else if m = 4 ∨ m = 6 ∨ m = 9 ∨ m = 11 then 30 else 31

/-- Range validation performed by the `datetime` constructor. -/
def mkDateTime (y mo d h mi s us : Nat) (off : Option Int) : Option DateTime :=
  if 1 ≤ y ∧ y ≤ 9999 ∧ 1 ≤ mo ∧ mo ≤ 12 ∧ 1 ≤ d ∧ d ≤ daysInMonth y mo
      ∧ h < 24 ∧ mi < 60 ∧ s < 60 ∧ us < 1000000
  then some ⟨y, mo, d, h, mi, s, us, off⟩ else none

/-- Split a list at the first occurrence of `c` (the occurrence is dropped). -/
def splitFirst (c : Char) : List Char → Option (List Char × List Char)
  | [] => none
  | x :: xs =>
    if x = c then some ([], xs)
    else (splitFirst c xs).map (fun p => (x :: p.1, p.2))

/-- Split the time string at the first `-`, else at the first `+` (the sign
search order of `datetime._parse_isoformat_time`); the boolean is true for a
negative offset. -/
def splitAtSign (l : List Char) : List Char × Option (Bool × List Char) :=
  match splitFirst '-' l with
  | some (a, b) => (a, some (true, b))
  | none =>
    match splitFirst '+' l with
    | some (a, b) => (a, some (false, b))
    | none => (l, none)

/-- Parse `HH`, `HH:MM`, `HH:MM:SS`, `HH:MM:SS.fff` or `HH:MM:SS.ffffff`. -/
def parseHMSF : List Char → Option (Nat × Nat × Nat × Nat)
  | [a, b] => (twoDigits a b).map (fun h => (h, 0, 0, 0))
  | [a, b, ':', c, d] =>
    (twoDigits a b).bind fun h => (twoDigits c d).map fun mi => (h, mi, 0, 0)
  | [a, b, ':', c, d, ':', e, f] =>
    (twoDigits a b).bind fun h => (twoDigits c d).bind fun mi =>
      (twoDigits e f).map fun s => (h, mi, s, 0)
  | [a, b, ':', c, d, ':', e, f, '.', g1, g2, g3] =>
    (twoDigits a b).bind fun h => (twoDigits c d).bind fun mi =>
      (twoDigits e f).bind fun s =>
        if g1.isDigit && g2.isDigit && g3.isDigit then
          some (h, mi, s, (100 * digitVal g1 + 10 * digitVal g2 + digitVal g3) * 1000)
        else none
  | [a, b, ':', c, d, ':', e, f, '.', g1, g2, g3, g4, g5, g6] =>
    (twoDigits a b).bind fun h => (twoDigits c d).bind fun mi =>
      (twoDigits e f).bind fun s =>
        if g1.isDigit && g2.isDigit && g3.isDigit && g4.isDigit && g5.isDigit && g6.isDigit then
          some (h, mi, s,
            100000 * digitVal g1 + 10000 * digitVal g2 + 1000 * digitVal g3
              + 100 * digitVal g4 + 10 * digitVal g5 + digitVal g6)
        else none
  | _ => none

/-- Parse a `HH:MM` UTC offset with the given sign; the offset must be
strictly inside ±24 hours. -/
def parseTz (neg : Bool) : List Char → Option Int
  | [a, b, ':', c, d] =>
    (twoDigits a b).bind fun h => (twoDigits c d).bind fun mi =>
      let tot := h * 60 + mi
      if tot < 1440 then some (if neg then -(tot : Int) else (tot : Int)) else none
  | _ => none

/-- Model of the fragment of `datetime.fromisoformat` this program relies on:
`YYYY-MM-DD`, optionally followed by a separator character and
`HH[:MM[:SS[.fff[fff]]]][±HH:MM]`.  A trailing `Z` is not accepted. -/
def fromisoformat (s : String) : Option DateTime :=
  match s.toList with
  | y1 :: y2 :: y3 :: y4 :: '-' :: m1 :: m2 :: '-' :: d1 :: d2 :: rest =>
    if y1.isDigit && y2.isDigit && y3.isDigit && y4.isDigit then
      (twoDigits m1 m2).bind fun mo => (twoDigits d1 d2).bind fun d =>
        let y := 1000 * digitVal y1 + 100 * digitVal y2 + 10 * digitVal y3 + digitVal y4
        match rest with
        | [] => mkDateTime y mo d 0 0 0 0 none
        | _sep :: tstr =>
          match splitAtSign tstr with
          | (timepart, none) =>
            (parseHMSF timepart).bind fun hmsf =>
              mkDateTime y mo d hmsf.1 hmsf.2.1 hmsf.2.2.1 hmsf.2.2.2 none
          | (timepart, some (neg, tzpart)) =>
            (parseHMSF timepart).bind fun hmsf =>
              (parseTz neg tzpart).bind fun off =>
                mkDateTime y mo d hmsf.1 hmsf.2.1 hmsf.2.2.1 hmsf.2.2.2 (some off)
    else none
  | _ => none

/-- Timestamp values reaching `_parse_iso_to_dt`: `None`, a structured
`datetime`, or an ISO-8601 string. -/
inductive TSInput where
  | none
  | dt (d : DateTime)
  | str (s : String)
deriving DecidableEq, Repr

/-- Model of Python's `s.replace("Z", "+00:00")`: every `Z` is replaced. -/
def replaceZ (cs : List Char) : List Char :=
  cs.flatMap (fun c => if c = 'Z' then String.toList "+00:00" else [c])

/-- Model of `repositories._parse_iso_to_dt`; `Except.error ()` is the
`ValueError` raised by `datetime.fromisoformat` on an unparsable string. -/
def parse_iso_to_dt : TSInput → Except Unit (Option DateTime)
  | .none => .ok Option.none
  | .dt d => .ok (some d)
  | .str s =>
    let l := s.toList
    let l' := if l ≠ [] ∧ l.getLast? = some 'Z' then replaceZ l else l
    match fromisoformat (String.mk l') with
    | some d => .ok (some d)
    | Option.none => .error ()

/-! ## Data model (models.py) and message processing (services.py) -/

/-- Input fields of a message (`MessageIn` minus its validation; also the
shape of the raw dict accepted by the service). -/
structure MsgInput where
  message_id : String
  session_id : String
  content : String
  timestamp : TSInput
  sender : String
deriving DecidableEq, Repr

/-- Result of `MessageService.process_message`: the input fields with the
content censored, plus `metadata` and `processed_at`. -/
structure ProcessedMsg where
  message_id : String
  session_id : String
  content : String
  timestamp : TSInput
  sender : String
  metadata : Metadata
  processed_at : TSInput
deriving DecidableEq, Repr

/-- Model of `MessageService.process_message`; `now` is the value of
`datetime.now(timezone.utc)` at the call. -/
def process_message (now : DateTime) (m : MsgInput) : ProcessedMsg :=
  { message_id := m.message_id
    session_id := m.session_id
    content := censorContent m.content
    timestamp := m.timestamp
    sender := m.sender
    metadata :=
      { length := m.content.length
        bad_words := sortStrs (foundWords m.content).dedup }
    processed_at := .dt now }

/-- Row of the `messages` table (`MessageORM`): exactly six columns, with no
metadata column. -/
structure MessageRec where
  message_id : String
  session_id : String
  content : String
  timestamp : Option DateTime
  sender : String
  processed_at : Option DateTime
deriving DecidableEq, Repr

/-- The database: the list of committed rows, in insertion order. -/
abbrev DB := List MessageRec

/-- Sort key on stored timestamps.  The SQLite backend stores a datetime by
its (naive) fields, so `ORDER BY timestamp` is lexicographic on the fields;
`NULL` sorts first. -/
def dtKey (d : DateTime) : Nat :=
  ((((((d.year * 13 + d.month) * 32 + d.day) * 24 + d.hour) * 60 + d.minute) * 60
      + d.second)) * 1000000 + d.microsecond

/-- Sort key on a nullable timestamp column. -/
def tsKey : Option DateTime → Nat
  | Option.none => 0
  | some d => dtKey d + 1

/-- Comparison used by `ORDER BY timestamp ASC`. -/
def tsLe (a b : MessageRec) : Prop := tsKey a.timestamp ≤ tsKey b.timestamp

instance : DecidableRel tsLe := fun a b => Nat.decLe (tsKey a.timestamp) (tsKey b.timestamp)

/-- The rows of `q` in ascending timestamp order (`ORDER BY timestamp ASC`). -/
def orderByTs (l : List MessageRec) : List MessageRec := List.insertionSort tsLe l

/-- Errors surfaced by `MessageRepository.save`: the `IntegrityError` raised
on a duplicate `message_id`, or the `ValueError` from timestamp parsing. -/
inductive SaveError where
  | duplicateKey
  | badTimestamp
deriving DecidableEq, Repr

/-- Model of `MessageRepository.save`: parse the timestamps, insert the row
and commit; a row whose `message_id` already exists violates the primary-key
constraint and raises `IntegrityError`, leaving the database unchanged.
Returns the outcome together with the resulting database state. -/
def MessageRepository.save (db : DB) (m : ProcessedMsg) :
    Except SaveError MessageRec × DB :=
  match parse_iso_to_dt m.timestamp, parse_iso_to_dt m.processed_at with
  | .ok ts, .ok pa =>
    if db.any (fun r => r.message_id == m.message_id) then
      (.error .duplicateKey, db)
    else
      let row : MessageRec :=
        { message_id := m.message_id
          session_id := m.session_id
          content := m.content
          timestamp := ts
          sender := m.sender
          processed_at := pa }
      (.ok row, db ++ [row])
  | _, _ => (.error .badTimestamp, db)

/-- Model of `MessageRepository.get_by_session`: filter by session, filter by
sender only when the sender value is truthy (non-`None` and non-empty), order
by timestamp, then apply offset and limit. -/
def MessageRepository.get_by_session (db : DB) (session_id : String)
    (limit : Nat := 10) (offset : Nat := 0) (sender : Option String := Option.none) :
    List MessageRec :=
  let q := db.filter (fun r => r.session_id == session_id)
  let q2 :=
    match sender with
    | Option.none => q
    | some s => if s = "" then q else q.filter (fun r => r.sender == s)
  ((orderByTs q2).drop offset).take limit

/-- Disjunction of `f` over all suffixes of the text: the semantics of a
leading `%` wildcard. -/
def pctScan (f : List Char → Bool) : List Char → Bool
  | [] => f []
  | d :: t2 => f (d :: t2) || pctScan f t2

/-- SQL `LIKE` matching, case-insensitive (SQLAlchemy's `ilike` lowers both
sides on SQLite): `%` matches any sequence, `_` matches any one character,
any other pattern character matches itself up to case. -/
def likeMatch : List Char → List Char → Bool
  | [], t => t.isEmpty
  | c :: ps, t =>
    if c = '%' then pctScan (likeMatch ps) t
    else if c = '_' then
      match t with
      | [] => false
      | _ :: t2 => likeMatch ps t2
    else
      match t with
      | [] => false
      | d :: t2 => (lowerChar c = lowerChar d) && likeMatch ps t2

/-- Model of `MessageRepository.search_messages`: rows of the session whose
content matches the `ilike` pattern `%query%`, ordered by timestamp with
offset and limit.  The query text is interpolated into the pattern verbatim,
so `%` and `_` in the query act as wildcards. -/
def MessageRepository.search_messages (db : DB) (session_id : String)
    (query : String) (limit : Nat := 10) (offset : Nat := 0) : List MessageRec :=
  let f := db.filter (fun r =>
    r.session_id == session_id
      && likeMatch ('%' :: query.toList ++ ['%']) r.content.toList)
  ((orderByTs f).drop offset).take limit

/-! ## Service layer (services.py) and validation (models.py, main.py) -/

/-- Python whitespace stripped by `str.strip()` (ASCII range). -/
def isPySpace (c : Char) : Bool :=
  c.isWhitespace || c = '\x0b' || c = '\x0c'

/-- Model of Python's `str.strip()`. -/
def pyStrip (s : String) : String :=
  String.mk (((s.toList.dropWhile isPySpace).reverse.dropWhile isPySpace).reverse)

/-- The `ValueError` raised by `MessageService.search_messages` on a short
query. -/
inductive SvcError where
  | invalidQuery
deriving DecidableEq, Repr

/-- Model of `MessageService.search_messages`: reject an empty query or a
query whose stripped length is below 2, otherwise delegate to the
repository. -/
def MessageService.search_messages (db : DB) (session_id : String)
    (query : String) (limit : Nat := 10) (offset : Nat := 0) :
    Except SvcError (List MessageRec) :=
  if query = "" ∨ (pyStrip query).length < 2 then .error .invalidQuery
  else .ok (MessageRepository.search_messages db session_id query limit offset)

/-- Model of `MessageService.get_messages`: direct delegation. -/
def MessageService.get_messages (db : DB) (session_id : String)
    (limit : Nat := 10) (offset : Nat := 0) (sender : Option String := Option.none) :
    List MessageRec :=
  MessageRepository.get_by_session db session_id limit offset sender

/-- Model of `MessageService.save_message`: process then save. -/
def MessageService.save_message (now : DateTime) (db : DB) (m : MsgInput) :
    Except SaveError MessageRec × DB :=
  MessageRepository.save db (process_message now m)

/-- The `sender` validator of `MessageIn`. -/
def validSender (s : String) : Bool := s == "user" || s == "system"

/-- Errors surfaced by the `POST /api/messages` path. -/
inductive ApiError where
  | validationError
  | duplicateKey
  | serverError
deriving DecidableEq, Repr

/-- Model of the `POST /api/messages` save path: pydantic validation of
`MessageIn` (in particular the sender validator), then
`MessageService.save_message`; an `IntegrityError` cause maps to 400
(duplicate), any other failure to 500.  Returns the outcome with the
resulting database state. -/
def create_message (now : DateTime) (db : DB) (m : MsgInput) :
    Except ApiError MessageRec × DB :=
  if validSender m.sender then
    match MessageService.save_message now db m with
    | (.ok r, db') => (.ok r, db')
    | (.error .duplicateKey, db') => (.error .duplicateKey, db')
    | (.error .badTimestamp, db') => (.error .serverError, db')
  else
    (.error .validationError, db)

/-- Case-insensitive substring containment, the spec's reading of `search`:
the lower-cased needle occurs contiguously in the lower-cased haystack. -/
def SubstringCI (needle hay : String) : Prop :=
  ∃ u v, hay.toList.map lowerChar = u ++ needle.toList.map lowerChar ++ v

/-- Executable check for a list occurring as a prefix of another. -/
def startsWith : List Char → List Char → Bool
  | [], _ => true
  | _ :: _, [] => false
  | a :: as_, b :: bs => a == b && startsWith as_ bs

/-- Executable check for contiguous containment. -/
def containsSub (needle hay : List Char) : Bool :=
  match hay with
  | [] => startsWith needle []
  | _ :: t => startsWith needle hay || containsSub needle t

/-- The forbidden words as strings. -/
def badWordsStr : List String := ["tonto", "idiota"]

/-! ## Helper lemmas: characters and word boundaries -/

theorem lowerChar_wordChar {c : Char} (h : isWordChar (lowerChar c) = true) :
    isWordChar c = true := by
  unfold lowerChar at h
  by_cases hc : c.isUpper
  · simp [isWordChar, Char.isAlphanum, Char.isAlpha, hc]
  · simpa [hc] using h

theorem badWords_nonempty : ∀ w ∈ badWords, w ≠ [] := by decide

theorem badWords_wordChars : ∀ w ∈ badWords, ∀ a ∈ w, isWordChar a = true := by decide

/-! ## Helper lemmas: takeWhile / dropWhile -/

theorem ltakeWhile_append {p : Char → Bool} (a b : List Char)
    (h : ∀ x ∈ a, p x = true) : (a ++ b).takeWhile p = a ++ b.takeWhile p := by
  induction a with
  | nil => simp
  | cons c a ih =>
    have hc := h c (by simp)
    simp only [List.cons_append, List.takeWhile_cons, hc, if_true]
    rw [ih (fun x hx => h x (by simp [hx]))]

theorem ldropWhile_append {p : Char → Bool} (a b : List Char)
    (h : ∀ x ∈ a, p x = true) : (a ++ b).dropWhile p = b.dropWhile p := by
  induction a with
  | nil => simp
  | cons c a ih =>
    have hc := h c (by simp)
    simp only [List.cons_append, List.dropWhile_cons, hc, if_true]
    exact ih (fun x hx => h x (by simp [hx]))

theorem ldropWhile_head {p : Char → Bool} (l : List Char) :
    l.dropWhile p = [] ∨ ∃ d ds, l.dropWhile p = d :: ds ∧ p d = false := by
  induction l with
  | nil => exact Or.inl rfl
  | cons c l ih =>
    by_cases hc : p c
    · simpa [List.dropWhile_cons, hc] using ih
    · exact Or.inr ⟨c, l, by simp [List.dropWhile_cons, hc], by simp [hc]⟩

/-! ## Helper lemmas: matching -/

theorem matchCI_some : ∀ (w cs r : List Char), matchCI w cs = some r →
    ∃ pre, cs = pre ++ r ∧ pre.map lowerChar = w := by
  intro w
  induction w with
  | nil =>
    intro cs r h
    simp only [matchCI, Option.some.injEq] at h
    exact ⟨[], by simp [h], rfl⟩
  | cons a ws ih =>
    intro cs r h
    cases cs with
    | nil => simp [matchCI] at h
    | cons c cs' =>
      by_cases hc : lowerChar c = a
      · simp only [matchCI, hc, if_true] at h
        obtain ⟨pre, hpre, hmap⟩ := ih cs' r h
        exact ⟨c :: pre, by simp [hpre], by simp [hmap, hc]⟩
      · simp [matchCI, hc] at h

theorem matchCI_complete : ∀ (pre r : List Char),
    matchCI (pre.map lowerChar) (pre ++ r) = some r := by
  intro pre
  induction pre with
  | nil => intro r; simp [matchCI]
  | cons c pre ih => intro r; simp [matchCI, ih]

theorem firstMatch_some : ∀ (ws : List (List Char)) (cs w r : List Char),
    firstMatch ws cs = some (w, r) →
    w ∈ ws ∧ matchCI w cs = some r ∧ boundaryOk r = true := by
  intro ws
  induction ws with
  | nil => intro cs w r h; simp [firstMatch] at h
  | cons w0 ws ih =>
    intro cs w r h
    unfold firstMatch at h
    cases hm : matchCI w0 cs with
    | none =>
      simp only [hm] at h
      obtain ⟨h1, h2, h3⟩ := ih cs w r h
      exact ⟨by simp [h1], h2, h3⟩
    | some r0 =>
      simp only [hm] at h
      by_cases hb : boundaryOk r0
      · rw [if_pos hb] at h
        obtain ⟨hw, hr⟩ := Prod.mk.inj (Option.some.inj h)
        subst hw; subst hr
        exact ⟨by simp, hm, hb⟩
      · rw [if_neg hb] at h
        obtain ⟨h1, h2, h3⟩ := ih cs w r h
        exact ⟨by simp [h1], h2, h3⟩

theorem firstMatch_none : ∀ (ws : List (List Char)) (cs : List Char),
    firstMatch ws cs = none →
    ∀ w ∈ ws, ∀ r, matchCI w cs = some r → boundaryOk r = false := by
  intro ws
  induction ws with
  | nil => intro cs _ w hw; simp at hw
  | cons w0 ws ih =>
    intro cs h w hw r hm
    unfold firstMatch at h
    rcases List.mem_cons.mp hw with hw0 | hws
    · subst hw0
      simp only [hm] at h
      by_cases hb : boundaryOk r
      · rw [if_pos hb] at h; exact absurd h (by simp)
      · simpa using hb
    · cases hm0 : matchCI w0 cs with
      | none => simp only [hm0] at h; exact ih cs h w hws r hm
      | some r0 =>
        simp only [hm0] at h
        by_cases hb : boundaryOk r0
        · rw [if_pos hb] at h; exact absurd h (by simp)
        · rw [if_neg hb] at h; exact ih cs h w hws r hm

/-! ## Helper lemmas: chunk structure -/

theorem chunksAux_fst (c : Char) (cs : List Char) :
    (chunksAux c cs).1 = c :: cs.takeWhile (fun x => isWordChar c == isWordChar x) := by
  induction cs generalizing c with
  | nil => simp [chunksAux]
  | cons d ds ih =>
    by_cases h : isWordChar c = isWordChar d
    · have hb : (isWordChar c == isWordChar d) = true := by simp [h]
      simp only [chunksAux, hb, if_true, List.takeWhile_cons]
      rw [ih d]
      have : (fun x => isWordChar d == isWordChar x)
          = (fun x => isWordChar c == isWordChar x) := by
        funext x; rw [h]
      rw [this]
    · have hb : (isWordChar c == isWordChar d) = false := by simp [h]
      simp only [chunksAux, hb, Bool.false_eq_true, if_false, List.takeWhile_cons, hb]

theorem chunksAux_snd (c : Char) (cs : List Char) :
    (chunksAux c cs).2 = chunks (cs.dropWhile (fun x => isWordChar c == isWordChar x)) := by
  induction cs generalizing c with
  | nil => simp [chunksAux, chunks]
  | cons d ds ih =>
    by_cases h : isWordChar c = isWordChar d
    · have hb : (isWordChar c == isWordChar d) = true := by simp [h]
      simp only [chunksAux, hb, if_true, List.dropWhile_cons]
      rw [ih d]
      have : (fun x => isWordChar d == isWordChar x)
          = (fun x => isWordChar c == isWordChar x) := by
        funext x; rw [h]
      rw [this]
    · have hb : (isWordChar c == isWordChar d) = false := by simp [h]
      simp only [chunksAux, hb, Bool.false_eq_true, if_false, List.dropWhile_cons, hb]
      rfl

theorem chunks_cons_word {c : Char} (cs : List Char) (hc : isWordChar c = true) :
    chunks (c :: cs)
      = (c :: cs.takeWhile isWordChar) :: chunks (cs.dropWhile isWordChar) := by
  have hf : (fun x => isWordChar c == isWordChar x) = (fun x => isWordChar x) := by
    funext x; rw [hc]; cases isWordChar x <;> rfl
  show (chunksAux c cs).1 :: (chunksAux c cs).2 = _
  rw [chunksAux_fst, chunksAux_snd, hf]

theorem chunks_cons_nonword {c : Char} (cs : List Char) (hc : isWordChar c = false) :
    chunks (c :: cs)
      = (c :: cs.takeWhile (fun x => !isWordChar x))
        :: chunks (cs.dropWhile (fun x => !isWordChar x)) := by
  have hf : (fun x => isWordChar c == isWordChar x) = (fun x => !isWordChar x) := by
    funext x; rw [hc]; cases isWordChar x <;> rfl
  show (chunksAux c cs).1 :: (chunksAux c cs).2 = _
  rw [chunksAux_fst, chunksAux_snd, hf]

theorem isBadChunk_head {c : Char} {t : List Char} (h : isBadChunk (c :: t) = true) :
    isWordChar c = true := by
  have hmem : lowerChunk (c :: t) ∈ badWords := of_decide_eq_true h
  have hhead : ∃ a rest, lowerChunk (c :: t) = a :: rest ∧ isWordChar a = true := by
    rcases (by simpa [badWords] using hmem : lowerChunk (c :: t) = "tonto".toList
        ∨ lowerChunk (c :: t) = "idiota".toList) with h1 | h1
    · exact ⟨'t', _, by simpa using h1, by decide⟩
    · exact ⟨'i', _, by simpa using h1, by decide⟩
  obtain ⟨a, rest, heq, ha⟩ := hhead
  have : lowerChar c = a := by
    have := congrArg (fun l => l.head?) heq
    simpa [lowerChunk] using this
  exact lowerChar_wordChar (this ▸ ha)

theorem chunks_word_run {pre rest : List Char} (hne : pre ≠ [])
    (hw : ∀ x ∈ pre, isWordChar x = true) (hb : boundaryOk rest = true) :
    chunks (pre ++ rest) = pre :: chunks rest := by
  cases pre with
  | nil => exact absurd rfl hne
  | cons c pt =>
    have hc : isWordChar c = true := hw c (by simp)
    have htw : rest.takeWhile isWordChar = [] := by
      cases rest with
      | nil => rfl
      | cons d ds =>
        have hd : isWordChar d = false := by
          have := hb
          simp only [boundaryOk, Bool.not_eq_true'] at this
          exact this
        simp [List.takeWhile_cons, hd]
    have hdw : rest.dropWhile isWordChar = rest := by
      cases rest with
      | nil => rfl
      | cons d ds =>
        have hd : isWordChar d = false := by
          have := hb
          simp only [boundaryOk, Bool.not_eq_true'] at this
          exact this
        simp [List.dropWhile_cons, hd]
    rw [List.cons_append, chunks_cons_word _ hc,
      ltakeWhile_append pt rest (fun x hx => hw x (by simp [hx])),
      ldropWhile_append pt rest (fun x hx => hw x (by simp [hx])), htw, hdw,
      List.append_nil]

/-! ## Helper lemmas: specification-side censorship -/

theorem isBadChunk_false_of_nonword {c : Char} {t : List Char}
    (hc : isWordChar c = false) : isBadChunk (c :: t) = false := by
  cases hbc : isBadChunk (c :: t) with
  | false => rfl
  | true => exact absurd (isBadChunk_head hbc) (by simp [hc])

theorem nonword_run_censor {tw dw : List Char}
    (htw : ∀ x ∈ tw, isWordChar x = false)
    (hdw : dw = [] ∨ ∃ d ds, dw = d :: ds ∧ isWordChar d = true) :
    censorSpec (tw ++ dw) = tw ++ censorSpec dw
      ∧ foundSpec (tw ++ dw) = foundSpec dw := by
  cases tw with
  | nil => simp
  | cons t0 tw' =>
    have ht0 : isWordChar t0 = false := htw t0 (by simp)
    have htw' : ∀ x ∈ tw', (fun x => !isWordChar x) x = true := by
      intro x hx; simp [htw x (by simp [hx])]
    have htake : dw.takeWhile (fun x => !isWordChar x) = [] := by
      rcases hdw with h | ⟨d, ds, h, hd⟩
      · simp [h]
      · simp [h, List.takeWhile_cons, hd]
    have hdrop : dw.dropWhile (fun x => !isWordChar x) = dw := by
      rcases hdw with h | ⟨d, ds, h, hd⟩
      · simp [h]
      · simp [h, List.dropWhile_cons, hd]
    have hch : chunks (t0 :: (tw' ++ dw)) = (t0 :: tw') :: chunks dw := by
      rw [chunks_cons_nonword _ ht0,
        ltakeWhile_append tw' dw htw', ldropWhile_append tw' dw htw',
        htake, hdrop, List.append_nil]
    have hnb : isBadChunk (t0 :: tw') = false := isBadChunk_false_of_nonword ht0
    constructor
    · simp [censorSpec, List.cons_append, hch, hnb]
    · simp [foundSpec, List.cons_append, hch, hnb]

theorem censorSpec_cons_nonword {c : Char} (cs : List Char)
    (hc : isWordChar c = false) :
    censorSpec (c :: cs) = c :: censorSpec cs
      ∧ foundSpec (c :: cs) = foundSpec cs := by
  have hch := chunks_cons_nonword cs hc
  have hnb : isBadChunk (c :: cs.takeWhile (fun x => !isWordChar x)) = false :=
    isBadChunk_false_of_nonword hc
  have htw : ∀ x ∈ cs.takeWhile (fun x => !isWordChar x), isWordChar x = false := by
    intro x hx
    have := List.mem_takeWhile_imp hx
    simpa using this
  have hdw : cs.dropWhile (fun x => !isWordChar x) = []
      ∨ ∃ d ds, cs.dropWhile (fun x => !isWordChar x) = d :: ds ∧ isWordChar d = true := by
    rcases ldropWhile_head (p := fun x => !isWordChar x) cs with h | ⟨d, ds, h, hd⟩
    · exact Or.inl h
    · exact Or.inr ⟨d, ds, h, by simpa using hd⟩
  have hre := nonword_run_censor htw hdw
  have hcs : cs = cs.takeWhile (fun x => !isWordChar x)
      ++ cs.dropWhile (fun x => !isWordChar x) :=
    (List.takeWhile_append_dropWhile (fun x => !isWordChar x) cs).symm
  constructor
  · calc censorSpec (c :: cs)
        = (c :: cs.takeWhile (fun x => !isWordChar x))
            ++ censorSpec (cs.dropWhile (fun x => !isWordChar x)) := by
          simp [censorSpec, hch, hnb]
    _ = c :: censorSpec cs := by
          rw [List.cons_append]
          congr 1
          rw [← hre.1, ← hcs]
  · calc foundSpec (c :: cs)
        = foundSpec (cs.dropWhile (fun x => !isWordChar x)) := by
          simp [foundSpec, hch, hnb]
    _ = foundSpec cs := by rw [← hre.2, ← hcs]

theorem censorSpec_cons_word_nobad {c : Char} (cs : List Char)
    (hc : isWordChar c = true)
    (hnb : isBadChunk (c :: cs.takeWhile isWordChar) = false) :
    censorSpec (c :: cs)
        = (c :: cs.takeWhile isWordChar) ++ censorSpec (cs.dropWhile isWordChar)
      ∧ foundSpec (c :: cs) = foundSpec (cs.dropWhile isWordChar) := by
  have hch := chunks_cons_word cs hc
  constructor
  · simp [censorSpec, hch, hnb]
  · simp [foundSpec, hch, hnb]

theorem censorSpec_match {pre rest : List Char} (hne : pre ≠ [])
    (hw : ∀ x ∈ pre, isWordChar x = true) (hb : boundaryOk rest = true)
    (hbad : isBadChunk pre = true) :
    censorSpec (pre ++ rest) = maskTok ++ censorSpec rest
      ∧ foundSpec (pre ++ rest) = lowerChunk pre :: foundSpec rest := by
  have hch := chunks_word_run hne hw hb
  constructor
  · simp [censorSpec, hch, hbad]
  · simp [foundSpec, hch, hbad]

theorem censorScan_skip : ∀ (k : Nat) (cs : List Char),
    censorScan k true cs = censorScan 0 true (cs.drop k) := by
  intro k
  induction k with
  | zero => intro cs; rw [List.drop_zero]
  | succ k ih =>
    intro cs
    cases cs with
    | nil => simp [censorScan]
    | cons c rest =>
      simp only [censorScan, List.drop_succ_cons]
      exact ih rest

/-! ## The scan computes the specification-side censorship -/

theorem censorScan_spec : ∀ (n : Nat) (cs : List Char), cs.length ≤ n →
    censorScan 0 false cs = (censorSpec cs, foundSpec cs) ∧
    censorScan 0 true cs
      = (cs.takeWhile isWordChar ++ censorSpec (cs.dropWhile isWordChar),
         foundSpec (cs.dropWhile isWordChar)) := by
  intro n
  induction n with
  | zero =>
    intro cs hlen
    have : cs = [] := List.eq_nil_of_length_eq_zero (Nat.le_zero.mp hlen)
    subst this
    exact ⟨by simp [censorScan, censorSpec, foundSpec, chunks],
      by simp [censorScan, censorSpec, foundSpec, chunks]⟩
  | succ n ih =>
    intro cs hlen
    cases cs with
    | nil =>
      exact ⟨by simp [censorScan, censorSpec, foundSpec, chunks],
        by simp [censorScan, censorSpec, foundSpec, chunks]⟩
    | cons c rest =>
      have hrest : rest.length ≤ n := by
        have := hlen
        simp only [List.length_cons] at this
        omega
      constructor
      · -- start-of-word position: the scan attempts a match
        cases hfm : firstMatch badWords (c :: rest) with
        | some p =>
          obtain ⟨w, after⟩ := p
          obtain ⟨hwmem, hmci, hbd⟩ := firstMatch_some _ _ _ _ hfm
          obtain ⟨pre, hsplit, hmap⟩ := matchCI_some _ _ _ hmci
          have hwne : w ≠ [] := badWords_nonempty w hwmem
          have hpre_ne : pre ≠ [] := by
            intro h
            subst h
            exact hwne (by simpa using hmap.symm)
          have hpre_word : ∀ x ∈ pre, isWordChar x = true := by
            intro x hx
            have hmem : lowerChar x ∈ w := by
              rw [← hmap]
              exact List.mem_map_of_mem lowerChar hx
            exact lowerChar_wordChar (badWords_wordChars w hwmem (lowerChar x) hmem)
          obtain ⟨p0, pt, hpre⟩ := List.exists_cons_of_ne_nil hpre_ne
          have hp0 : p0 = c ∧ rest = pt ++ after := by
            rw [hpre, List.cons_append] at hsplit
            exact ⟨(List.cons.inj hsplit).1.symm, (List.cons.inj hsplit).2⟩
          have hlenw : pt.length + 1 = w.length := by
            rw [← hmap, hpre]
            simp
          have hafter : rest.drop (w.length - 1) = after := by
            rw [hp0.2, ← hlenw]
            simp only [Nat.add_sub_cancel]
            exact List.drop_left pt after
          have hafter_len : after.length ≤ n := by
            have : rest.length = pt.length + after.length := by
              rw [hp0.2]; simp
            omega
          have hbad : isBadChunk pre = true := by
            have : lowerChunk pre = w := hmap
            simp [isBadChunk, this, hwmem]
          have hspec := censorSpec_match hpre_ne hpre_word hbd hbad
          have hih := (ih after hafter_len).2
          have hafter_tw : after.takeWhile isWordChar = [] := by
            cases after with
            | nil => rfl
            | cons d ds =>
              have hd : isWordChar d = false := by
                simpa [boundaryOk, Bool.not_eq_true'] using hbd
              simp [List.takeWhile_cons, hd]
          have hafter_dw : after.dropWhile isWordChar = after := by
            cases after with
            | nil => rfl
            | cons d ds =>
              have hd : isWordChar d = false := by
                simpa [boundaryOk, Bool.not_eq_true'] using hbd
              simp [List.dropWhile_cons, hd]
          have hscan : censorScan 0 false (c :: rest)
              = ('*' :: '*' :: '*' :: (censorScan (w.length - 1) true rest).1,
                 w :: (censorScan (w.length - 1) true rest).2) := by
            simp [censorScan, hfm]
          rw [hscan, censorScan_skip (w.length - 1) rest, hafter, hih]
          rw [hsplit, hspec.1, hspec.2]
          rw [hafter_tw, hafter_dw]
          simp [maskTok, lowerChunk, ← hmap]
        | none =>
          by_cases hw : isWordChar c = true
          · -- word character, but no forbidden word matches here
            have htw : ∀ x ∈ rest.takeWhile isWordChar, isWordChar x = true :=
              fun x hx => List.mem_takeWhile_imp hx
            have hnb : isBadChunk (c :: rest.takeWhile isWordChar) = false := by
              cases hbc : isBadChunk (c :: rest.takeWhile isWordChar) with
              | false => rfl
              | true =>
                exfalso
                have hmem : lowerChunk (c :: rest.takeWhile isWordChar) ∈ badWords :=
                  of_decide_eq_true hbc
                have hsplit2 : c :: rest
                    = (c :: rest.takeWhile isWordChar) ++ rest.dropWhile isWordChar := by
                  rw [List.cons_append, List.takeWhile_append_dropWhile]
                have hmci2 : matchCI (lowerChunk (c :: rest.takeWhile isWordChar))
                    (c :: rest) = some (rest.dropWhile isWordChar) := by
                  rw [hsplit2]
                  exact matchCI_complete (c :: rest.takeWhile isWordChar) _
                have hbd2 : boundaryOk (rest.dropWhile isWordChar) = true := by
                  rcases ldropWhile_head (p := isWordChar) rest with h | ⟨d, ds, h, hd⟩
                  · simp [h, boundaryOk]
                  · simp [h, boundaryOk, hd]
                have := firstMatch_none badWords (c :: rest) hfm _ hmem _ hmci2
                rw [hbd2] at this
                exact Bool.noConfusion this
            have hspec := censorSpec_cons_word_nobad rest hw hnb
            have hscan : censorScan 0 false (c :: rest)
                = (c :: (censorScan 0 (isWordChar c) rest).1,
                   (censorScan 0 (isWordChar c) rest).2) := by
              simp [censorScan, hfm]
            rw [hscan, hw]
            have hih := (ih rest hrest).2
            rw [hih, hspec.1, hspec.2, List.cons_append]
          · -- non-word character: passed through unchanged
            have hw' : isWordChar c = false := by
              cases h : isWordChar c with
              | false => rfl
              | true => exact absurd h hw
            have hspec := censorSpec_cons_nonword rest hw'
            have hscan : censorScan 0 false (c :: rest)
                = (c :: (censorScan 0 (isWordChar c) rest).1,
                   (censorScan 0 (isWordChar c) rest).2) := by
              simp [censorScan, hfm]
            rw [hscan, hw']
            have hih := (ih rest hrest).1
            rw [hih, hspec.1, hspec.2]
      · -- inside a word: the character is passed through
        have hscan : censorScan 0 true (c :: rest)
            = (c :: (censorScan 0 (isWordChar c) rest).1,
               (censorScan 0 (isWordChar c) rest).2) := by
          simp [censorScan]
        by_cases hw : isWordChar c = true
        · rw [hscan, hw]
          have hih := (ih rest hrest).2
          rw [hih]
          simp [List.takeWhile_cons, List.dropWhile_cons, hw]
        · have hw' : isWordChar c = false := by
            cases h : isWordChar c with
            | false => rfl
            | true => exact absurd h hw
          rw [hscan, hw']
          have hih := (ih rest hrest).1
          rw [hih]
          have hspec := censorSpec_cons_nonword rest hw'
          simp [List.takeWhile_cons, List.dropWhile_cons, hw', hspec.1, hspec.2]

/-- Specialization at the start of the string. -/
theorem censorScan_false (cs : List Char) :
    censorScan 0 false cs = (censorSpec cs, foundSpec cs) :=
  (censorScan_spec cs.length cs le_rfl).1

/-! ## Consequences: found words, chunk concatenation, sortedness -/

theorem mem_foundSpec {w : List Char} {cs : List Char} :
    w ∈ foundSpec cs ↔ ∃ ch ∈ chunks cs, isBadChunk ch = true ∧ lowerChunk ch = w := by
  simp only [foundSpec, List.mem_filterMap]
  constructor
  · rintro ⟨ch, hch, hsome⟩
    by_cases hb : isBadChunk ch
    · rw [if_pos hb] at hsome
      exact ⟨ch, hch, hb, Option.some.inj hsome⟩
    · rw [if_neg hb] at hsome
      exact absurd hsome (by simp)
  · rintro ⟨ch, hch, hb, hlc⟩
    exact ⟨ch, hch, by rw [if_pos hb, hlc]⟩

theorem chunks_flatten : ∀ (n : Nat) (cs : List Char), cs.length ≤ n →
    (chunks cs).flatten = cs := by
  intro n
  induction n with
  | zero =>
    intro cs hlen
    have : cs = [] := List.eq_nil_of_length_eq_zero (Nat.le_zero.mp hlen)
    subst this
    rfl
  | succ n ih =>
    intro cs hlen
    cases cs with
    | nil => rfl
    | cons c rest =>
      have hrest : rest.length ≤ n := by
        simp only [List.length_cons] at hlen
        omega
      by_cases hw : isWordChar c = true
      · rw [chunks_cons_word rest hw]
        have hdlen : (rest.dropWhile isWordChar).length ≤ n :=
          le_trans (List.dropWhile_sublist isWordChar).length_le hrest
        simp only [List.flatten_cons, ih _ hdlen]
        rw [List.cons_append, List.takeWhile_append_dropWhile]
      · have hw' : isWordChar c = false := by
          cases h : isWordChar c with
          | false => rfl
          | true => exact absurd h hw
        rw [chunks_cons_nonword rest hw']
        have hdlen : (rest.dropWhile (fun x => !isWordChar x)).length ≤ n :=
          le_trans (List.dropWhile_sublist _).length_le hrest
        simp only [List.flatten_cons, ih _ hdlen]
        rw [List.cons_append, List.takeWhile_append_dropWhile]

theorem censorSpec_of_no_bad {cs : List Char}
    (h : ∀ ch ∈ chunks cs, isBadChunk ch = false) : censorSpec cs = cs := by
  have hmap : (chunks cs).map (fun ch => if isBadChunk ch then maskTok else ch)
      = (chunks cs).map id := by
    apply List.map_congr_left
    intro ch hch
    simp [h ch hch]
  rw [censorSpec, hmap, List.map_id]
  exact chunks_flatten cs.length cs le_rfl

theorem listLe_total : ∀ x y : List Char, listLe x y = true ∨ listLe y x = true := by
  intro x
  induction x with
  | nil => intro y; exact Or.inl rfl
  | cons a x ih =>
    intro y
    cases y with
    | nil => exact Or.inr rfl
    | cons b y =>
      by_cases hab : a = b
      · subst hab
        rcases ih y with h | h
        · exact Or.inl (by simp [listLe, h])
        · exact Or.inr (by simp [listLe, h])
      · have hv : a.val ≠ b.val := fun h => hab (Char.ext h)
        have : a < b ∨ b < a := by
          rcases Nat.lt_or_ge a.toNat b.toNat with h | h
          · exact Or.inl (Char.lt_def.mpr h)
          · rcases Nat.lt_or_eq_of_le h with h2 | h2
            · exact Or.inr (Char.lt_def.mpr h2)
            · refine absurd (Char.ext ?_) hab
              have h3 := h2.symm
              unfold Char.toNat at h3
              exact UInt32.toNat.inj h3
        rcases this with h | h
        · exact Or.inl (by simp [listLe, hab, h])
        · exact Or.inr (by simp [listLe, Ne.symm hab, h])

theorem listLe_trans : ∀ x y z : List Char,
    listLe x y = true → listLe y z = true → listLe x z = true := by
  intro x
  induction x with
  | nil => intro y z _ _; rfl
  | cons a x ih =>
    intro y z hxy hyz
    cases y with
    | nil => exact absurd hxy (by simp [listLe])
    | cons b y =>
      cases z with
      | nil => exact absurd hyz (by simp [listLe])
      | cons c z =>
        by_cases hab : a = b <;> by_cases hbc : b = c
        · subst hab; subst hbc
          simp only [listLe, if_pos rfl] at hxy hyz ⊢
          exact ih y z hxy hyz
        · subst hab
          simp only [listLe, if_pos rfl] at hxy
          simp only [listLe, if_neg hbc] at hyz ⊢
          exact hyz
        · subst hbc
          simp only [listLe, if_neg hab] at hxy ⊢
          exact hxy
        · simp only [listLe, if_neg hab] at hxy
          simp only [listLe, if_neg hbc] at hyz
          have hlt : a < c :=
            Char.lt_def.mpr (Nat.lt_trans (Char.lt_def.mp (of_decide_eq_true hxy))
              (Char.lt_def.mp (of_decide_eq_true hyz)))
          have hac : a ≠ c := fun h => by
            subst h
            exact Nat.lt_irrefl _ (Char.lt_def.mp hlt)
          simp [listLe, hac, hlt]

theorem pyStrLe_total : ∀ a b : String, pyStrLe a b ∨ pyStrLe b a :=
  fun a b => listLe_total a.toList b.toList

theorem pyStrLe_trans : ∀ a b c : String, pyStrLe a b → pyStrLe b c → pyStrLe a c :=
  fun a b c => listLe_trans a.toList b.toList c.toList

theorem mem_sortStrs {a : String} {l : List String} : a ∈ sortStrs l ↔ a ∈ l :=
  (List.perm_insertionSort pyStrLe l).mem_iff

theorem sortStrs_sorted (l : List String) : List.Sorted pyStrLe (sortStrs l) := by
  haveI : IsTotal String pyStrLe := ⟨pyStrLe_total⟩
  haveI : IsTrans String pyStrLe := ⟨pyStrLe_trans⟩
  exact List.sorted_insertionSort pyStrLe l

theorem sortStrs_nodup {l : List String} (h : l.Nodup) : (sortStrs l).Nodup :=
  ((List.perm_insertionSort pyStrLe l).nodup_iff).mpr h

theorem mem_badWords_iff_str {w : String} :
    w.toList ∈ badWords ↔ w ∈ badWordsStr := by
  have h1 : ∀ t : String, w.toList = t.toList ↔ w = t := by
    intro t
    constructor
    · intro h
      apply String.ext
      exact h
    · intro h; rw [h]
  simp only [badWords, badWordsStr, List.mem_cons, List.mem_singleton,
    List.not_mem_nil, or_false]
  rw [show String.toList "tonto" = ("tonto" : String).toList from rfl,
    show String.toList "idiota" = ("idiota" : String).toList from rfl, h1, h1]

theorem mk_toList (w : String) : String.mk w.toList = w := rfl

theorem toList_mk (l : List Char) : (String.mk l).toList = l := rfl

/-- Membership in the `bad_words` metadata is exactly whole-word
case-insensitive occurrence of a forbidden word. -/
theorem mem_bad_words_iff (now : DateTime) (m : MsgInput) (w : String) :
    w ∈ (process_message now m).metadata.bad_words
      ↔ (w ∈ badWordsStr ∧ OccursWholeWordCI w m.content) := by
  have hscan := censorScan_false m.content.toList
  have hfw : foundWords m.content = (foundSpec m.content.toList).map String.mk := by
    rw [foundWords, hscan]
  simp only [process_message, hfw]
  rw [mem_sortStrs, List.mem_dedup, List.mem_map]
  constructor
  · rintro ⟨v, hv, hmk⟩
    obtain ⟨ch, hch, hbad, hlc⟩ := mem_foundSpec.mp hv
    have hvw : v = w.toList := by
      rw [← hmk, toList_mk]
    have hmem : w.toList ∈ badWords := by
      rw [← hvw, ← hlc]
      exact of_decide_eq_true hbad
    exact ⟨mem_badWords_iff_str.mp hmem, ⟨ch, hch, by rw [hlc, hvw]⟩⟩
  · rintro ⟨hwmem, ch, hch, hlc⟩
    refine ⟨w.toList, ?_, mk_toList w⟩
    apply mem_foundSpec.mpr
    refine ⟨ch, hch, ?_, hlc⟩
    have : lowerChunk ch ∈ badWords := by
      rw [hlc]
      exact mem_badWords_iff_str.mpr hwmem
    simp [isBadChunk, this]

/-- C1: `process_message` replaces exactly the whole-word, case-insensitive
occurrences of the forbidden words `{"tonto", "idiota"}` with `***`
(substrings of larger words are untouched); the metadata `length` is the
character count of the original content and `bad_words` is the sorted,
deduplicated, lower-cased list of the distinct forbidden words occurring in
the content, regardless of multiplicity. -/
theorem claim_C1 (now : DateTime) (m : MsgInput) :
    (process_message now m).metadata.length = m.content.length
    ∧ (process_message now m).content = String.mk (censorSpec m.content.toList)
    ∧ (∀ w : String, w ∈ (process_message now m).metadata.bad_words
        ↔ (w ∈ badWordsStr ∧ OccursWholeWordCI w m.content))
    ∧ List.Sorted pyStrLe (process_message now m).metadata.bad_words
    ∧ ((process_message now m).metadata.bad_words).Nodup
    ∧ ((∀ w ∈ badWordsStr, ¬ OccursWholeWordCI w m.content)
        → (process_message now m).content = m.content) := by
  refine ⟨rfl, ?_, mem_bad_words_iff now m, ?_, ?_, ?_⟩
  · show censorContent m.content = _
    rw [censorContent, censorScan_false m.content.toList]
  · exact sortStrs_sorted _
  · exact sortStrs_nodup (List.nodup_dedup _)
  · intro h
    have hnb : ∀ ch ∈ chunks m.content.toList, isBadChunk ch = false := by
      intro ch hch
      cases hbc : isBadChunk ch with
      | false => rfl
      | true =>
        exfalso
        have hmem : lowerChunk ch ∈ badWords := of_decide_eq_true hbc
        have hmem' : (String.mk (lowerChunk ch)).toList ∈ badWords := by
          rw [toList_mk]; exact hmem
        refine h (String.mk (lowerChunk ch)) (mem_badWords_iff_str.mp hmem')
          ⟨ch, hch, ?_⟩
        rw [toList_mk]
    show censorContent m.content = m.content
    rw [censorContent, censorScan_false m.content.toList]
    show String.mk (censorSpec m.content.toList) = m.content
    rw [censorSpec_of_no_bad hnb, mk_toList]

/-- C1 witness: a content where `TONTO` is censored but the larger word
`idiotas` is not, with the metadata reduced to the single word found. -/
theorem claim_C1_witness :
    (process_message ⟨2025, 1, 1, 0, 0, 0, 0, Option.none⟩
        ⟨"w1", "ws", "El TONTO y los idiotas",
          .dt ⟨2025, 1, 1, 0, 0, 0, 0, Option.none⟩, "user"⟩).content
      = String.mk (censorSpec ("El TONTO y los idiotas" : String).toList)
    ∧ (process_message ⟨2025, 1, 1, 0, 0, 0, 0, Option.none⟩
        ⟨"w1", "ws", "El TONTO y los idiotas",
          .dt ⟨2025, 1, 1, 0, 0, 0, 0, Option.none⟩, "user"⟩).content
      = "El *** y los idiotas"
    ∧ (process_message ⟨2025, 1, 1, 0, 0, 0, 0, Option.none⟩
        ⟨"w1", "ws", "El TONTO y los idiotas",
          .dt ⟨2025, 1, 1, 0, 0, 0, 0, Option.none⟩, "user"⟩).metadata.bad_words
      = ["tonto"] :=
  ⟨(claim_C1 ⟨2025, 1, 1, 0, 0, 0, 0, Option.none⟩
      ⟨"w1", "ws", "El TONTO y los idiotas",
        .dt ⟨2025, 1, 1, 0, 0, 0, 0, Option.none⟩, "user"⟩).2.1,
   by decide, by decide⟩

/-- C2 counterexample: the metadata length for the scenario content
`"Hola tonto idiota"` is 17, not the 18 stated by the spec scenario
(`len("Hola tonto idiota") = 17`, as the repository's own unit test
asserts). -/
theorem claim_C2_counterexample :
    (process_message ⟨2025, 9, 23, 15, 0, 0, 0, some 0⟩
        ⟨"m1", "s1", "Hola tonto idiota",
          .dt ⟨2025, 9, 23, 14, 30, 0, 0, some 0⟩, "user"⟩).metadata.length = 17
    ∧ (process_message ⟨2025, 9, 23, 15, 0, 0, 0, some 0⟩
        ⟨"m1", "s1", "Hola tonto idiota",
          .dt ⟨2025, 9, 23, 14, 30, 0, 0, some 0⟩, "user"⟩).metadata.length ≠ 18 := by
  constructor
  · rfl
  · decide

/-- C2 (amended): saving `{id:"m1", session:"s1", content:"Hola tonto idiota",
sender:"user", timestamp:T}` into an empty store persists a record with
content `"Hola *** ***"`, and the processed message carries metadata
`{length: 17, bad_words: ["idiota","tonto"]}` (the metadata itself is not
persisted, the stored row having no metadata column). -/
theorem claim_C2 (now ts : DateTime) :
    MessageService.save_message now []
        ⟨"m1", "s1", "Hola tonto idiota", .dt ts, "user"⟩
      = (.ok ⟨"m1", "s1", "Hola *** ***", some ts, "user", some now⟩,
         [⟨"m1", "s1", "Hola *** ***", some ts, "user", some now⟩])
    ∧ (process_message now
        ⟨"m1", "s1", "Hola tonto idiota", .dt ts, "user"⟩).metadata
      = ⟨17, ["idiota", "tonto"]⟩ := by
  refine ⟨rfl, ?_⟩
  show Metadata.mk ("Hola tonto idiota" : String).length
      (sortStrs (foundWords "Hola tonto idiota").dedup) = ⟨17, ["idiota", "tonto"]⟩
  decide

/-- C3: with a fresh `message_id` and parsable timestamps, the first save
succeeds and appends the row; a second save with the same `message_id`
(whatever its session) fails with the duplicate-key condition and leaves the
database — in particular the first row — unchanged. -/
theorem claim_C3 (db : DB) (p1 p2 : ProcessedMsg)
    (hfresh : ∀ r ∈ db, r.message_id ≠ p1.message_id)
    (hid : p2.message_id = p1.message_id)
    (ts1 pa1 : Option DateTime)
    (ht1 : parse_iso_to_dt p1.timestamp = .ok ts1)
    (hp1 : parse_iso_to_dt p1.processed_at = .ok pa1)
    (ts2 pa2 : Option DateTime)
    (ht2 : parse_iso_to_dt p2.timestamp = .ok ts2)
    (hp2 : parse_iso_to_dt p2.processed_at = .ok pa2) :
    ∃ r1 : MessageRec,
      MessageRepository.save db p1 = (.ok r1, db ++ [r1])
      ∧ r1 = ⟨p1.message_id, p1.session_id, p1.content, ts1, p1.sender, pa1⟩
      ∧ (MessageRepository.save (db ++ [r1]) p2).1 = .error .duplicateKey
      ∧ (MessageRepository.save (db ++ [r1]) p2).2 = db ++ [r1] := by
  have hany : db.any (fun r => r.message_id == p1.message_id) = false := by
    rw [List.any_eq_false]
    intro r hr
    simpa using hfresh r hr
  refine ⟨⟨p1.message_id, p1.session_id, p1.content, ts1, p1.sender, pa1⟩, ?_, rfl, ?_, ?_⟩
  · rw [MessageRepository.save, ht1, hp1]
    simp [hany]
  · rw [MessageRepository.save, ht2, hp2]
    have hany2 : (db ++ [(⟨p1.message_id, p1.session_id, p1.content, ts1, p1.sender,
        pa1⟩ : MessageRec)]).any (fun r => r.message_id == p2.message_id) = true := by
      rw [List.any_eq_true]
      refine ⟨⟨p1.message_id, p1.session_id, p1.content, ts1, p1.sender, pa1⟩,
        by simp, by simp [hid]⟩
    simp [hany2]
  · rw [MessageRepository.save, ht2, hp2]
    have hany2 : (db ++ [(⟨p1.message_id, p1.session_id, p1.content, ts1, p1.sender,
        pa1⟩ : MessageRec)]).any (fun r => r.message_id == p2.message_id) = true := by
      rw [List.any_eq_true]
      refine ⟨⟨p1.message_id, p1.session_id, p1.content, ts1, p1.sender, pa1⟩,
        by simp, by simp [hid]⟩
    simp [hany2]

/-- C3 witness at concrete inputs. -/
theorem claim_C3_witness :
    ∃ r1 : MessageRec,
      MessageRepository.save []
          ⟨"dup", "s1", "hola", .dt ⟨2025, 1, 1, 0, 0, 0, 0, Option.none⟩, "user",
            ⟨4, []⟩, .dt ⟨2025, 1, 1, 1, 0, 0, 0, Option.none⟩⟩
        = (.ok r1, [] ++ [r1])
      ∧ r1 = ⟨"dup", "s1", "hola", some ⟨2025, 1, 1, 0, 0, 0, 0, Option.none⟩, "user",
          some ⟨2025, 1, 1, 1, 0, 0, 0, Option.none⟩⟩
      ∧ (MessageRepository.save ([] ++ [r1])
          ⟨"dup", "s2", "otro", .dt ⟨2025, 1, 2, 0, 0, 0, 0, Option.none⟩, "user",
            ⟨4, []⟩, .dt ⟨2025, 1, 2, 1, 0, 0, 0, Option.none⟩⟩).1 = .error .duplicateKey
      ∧ (MessageRepository.save ([] ++ [r1])
          ⟨"dup", "s2", "otro", .dt ⟨2025, 1, 2, 0, 0, 0, 0, Option.none⟩, "user",
            ⟨4, []⟩, .dt ⟨2025, 1, 2, 1, 0, 0, 0, Option.none⟩⟩).2 = [] ++ [r1] := by
  exact claim_C3 []
    ⟨"dup", "s1", "hola", .dt ⟨2025, 1, 1, 0, 0, 0, 0, Option.none⟩, "user",
      ⟨4, []⟩, .dt ⟨2025, 1, 1, 1, 0, 0, 0, Option.none⟩⟩
    ⟨"dup", "s2", "otro", .dt ⟨2025, 1, 2, 0, 0, 0, 0, Option.none⟩, "user",
      ⟨4, []⟩, .dt ⟨2025, 1, 2, 1, 0, 0, 0, Option.none⟩⟩
    (by intro r hr; simp at hr) rfl
    (some ⟨2025, 1, 1, 0, 0, 0, 0, Option.none⟩)
    (some ⟨2025, 1, 1, 1, 0, 0, 0, Option.none⟩) rfl rfl
    (some ⟨2025, 1, 2, 0, 0, 0, 0, Option.none⟩)
    (some ⟨2025, 1, 2, 1, 0, 0, 0, Option.none⟩) rfl rfl

/-! ## Helper lemmas: ordering and pagination -/

theorem orderByTs_sorted (l : List MessageRec) : List.Sorted tsLe (orderByTs l) := by
  haveI : IsTotal MessageRec tsLe := ⟨fun a b => Nat.le_total _ _⟩
  haveI : IsTrans MessageRec tsLe := ⟨fun _ _ _ => Nat.le_trans⟩
  exact List.sorted_insertionSort tsLe l

theorem orderByTs_perm (l : List MessageRec) : (orderByTs l).Perm l :=
  List.perm_insertionSort tsLe l

theorem slice_sorted {l : List MessageRec} (h : List.Sorted tsLe l) (O L : Nat) :
    List.Sorted tsLe ((l.drop O).take L) :=
  List.Pairwise.sublist ((List.take_sublist L (l.drop O)).trans (List.drop_sublist O l)) h

theorem slice_length (l : List MessageRec) (O L : Nat) :
    ((l.drop O).take L).length = min L (l.length - O) := by
  rw [List.length_take, List.length_drop]

/-- C4: `get_by_session` without a sender filter returns exactly the slice
`[O, O+L)` of the timestamp-ordered sequence of the session's records (hence
`min L (N - O)` records, in non-decreasing timestamp order); with a
(non-empty) sender value the same holds over the subsequence of records with
that sender. -/
theorem claim_C4 (db : DB) (sid : String) (L O : Nat) :
    (MessageRepository.get_by_session db sid L O Option.none
        = (((orderByTs (db.filter (fun r => r.session_id == sid))).drop O).take L)
      ∧ List.Sorted tsLe (MessageRepository.get_by_session db sid L O Option.none)
      ∧ (MessageRepository.get_by_session db sid L O Option.none).length
          = min L ((db.filter (fun r => r.session_id == sid)).length - O))
    ∧ (∀ s : String, s ≠ "" →
        MessageRepository.get_by_session db sid L O (some s)
          = (((orderByTs (db.filter (fun r =>
              r.session_id == sid && r.sender == s))).drop O).take L)
        ∧ List.Sorted tsLe (MessageRepository.get_by_session db sid L O (some s))
        ∧ (MessageRepository.get_by_session db sid L O (some s)).length
            = min L ((db.filter (fun r =>
                r.session_id == sid && r.sender == s)).length - O)) := by
  constructor
  · refine ⟨rfl, ?_, ?_⟩
    · exact slice_sorted (orderByTs_sorted _) O L
    · rw [show MessageRepository.get_by_session db sid L O Option.none
          = (((orderByTs (db.filter (fun r => r.session_id == sid))).drop O).take L)
          from rfl]
      rw [slice_length, (orderByTs_perm _).length_eq]
  · intro s hs
    have hfil : (db.filter (fun r => r.session_id == sid)).filter (fun r => r.sender == s)
        = db.filter (fun r => r.session_id == sid && r.sender == s) := by
      rw [List.filter_filter]
      apply List.filter_congr
      intro r _
      rw [Bool.and_comm]
    have hget : MessageRepository.get_by_session db sid L O (some s)
        = (((orderByTs (db.filter (fun r =>
            r.session_id == sid && r.sender == s))).drop O).take L) := by
      show ((orderByTs (if s = "" then _ else _)).drop O).take L = _
      rw [if_neg hs, hfil]
    refine ⟨hget, ?_, ?_⟩
    · rw [hget]
      exact slice_sorted (orderByTs_sorted _) O L
    · rw [hget, slice_length, (orderByTs_perm _).length_eq]

/-- C4 witness: a concrete session with three records, limit 2, offset 1. -/
theorem claim_C4_witness :
    MessageRepository.get_by_session
        [⟨"a", "p", "1", some ⟨2025, 1, 1, 0, 0, 0, 0, Option.none⟩, "user", Option.none⟩,
         ⟨"b", "p", "2", some ⟨2025, 1, 2, 0, 0, 0, 0, Option.none⟩, "user", Option.none⟩,
         ⟨"c", "p", "3", some ⟨2025, 1, 3, 0, 0, 0, 0, Option.none⟩, "system", Option.none⟩]
        "p" 2 1 (some "user")
      = (((orderByTs (List.filter (fun r => r.session_id == "p" && r.sender == "user")
          [⟨"a", "p", "1", some ⟨2025, 1, 1, 0, 0, 0, 0, Option.none⟩, "user", Option.none⟩,
           ⟨"b", "p", "2", some ⟨2025, 1, 2, 0, 0, 0, 0, Option.none⟩, "user", Option.none⟩,
           ⟨"c", "p", "3", some ⟨2025, 1, 3, 0, 0, 0, 0, Option.none⟩, "system",
             Option.none⟩])).drop 1).take 2)
    ∧ ("user" : String) ≠ "" :=
  ⟨((claim_C4 _ "p" 2 1).2 "user" (by decide)).1, by decide⟩

/-- C10: passing the empty string as the sender filter behaves exactly like
passing no sender filter, both at the repository and at the service layer:
the truthiness test `if sender:` skips the filter. -/
theorem claim_C10 (db : DB) (sid : String) (L O : Nat) :
    MessageRepository.get_by_session db sid L O (some "")
      = MessageRepository.get_by_session db sid L O Option.none
    ∧ MessageService.get_messages db sid L O (some "")
      = MessageService.get_messages db sid L O Option.none :=
  ⟨rfl, rfl⟩

/-! ## Helper lemmas: LIKE patterns and substrings -/

theorem bool_eq_of_iff {a b : Bool} (h : a = true ↔ b = true) : a = b := by
  cases a <;> cases b <;> simp_all

theorem startsWith_iff : ∀ (n h : List Char), startsWith n h = true ↔ ∃ t, h = n ++ t := by
  intro n
  induction n with
  | nil => intro h; simp [startsWith]
  | cons a n ih =>
    intro h
    cases h with
    | nil =>
      simp only [startsWith, Bool.false_eq_true, false_iff]
      rintro ⟨t, ht⟩
      exact absurd ht (by simp)
    | cons b h' =>
      simp only [startsWith, Bool.and_eq_true, beq_iff_eq, ih]
      constructor
      · rintro ⟨hab, t, ht⟩
        exact ⟨t, by rw [hab, ht, List.cons_append]⟩
      · rintro ⟨t, ht⟩
        rw [List.cons_append] at ht
        exact ⟨(List.cons.inj ht).1.symm, t, (List.cons.inj ht).2⟩

theorem containsSub_iff : ∀ (h n : List Char),
    containsSub n h = true ↔ ∃ u v, h = u ++ n ++ v := by
  intro h
  induction h with
  | nil =>
    intro n
    simp only [containsSub, startsWith_iff]
    constructor
    · rintro ⟨t, ht⟩
      have hn : n = [] ∧ t = [] := by
        constructor
        · cases n with
          | nil => rfl
          | cons a n' => exact absurd ht.symm (by simp)
        · cases t with
          | nil => rfl
          | cons a t' =>
            exfalso
            have := congrArg List.length ht
            simp at this
            omega
      exact ⟨[], [], by simp [hn.1]⟩
    · rintro ⟨u, v, huv⟩
      have hu : u = [] ∧ n = [] ∧ v = [] := by
        have h1 := congrArg List.length huv
        simp at h1
        exact ⟨List.eq_nil_of_length_eq_zero (by omega),
          List.eq_nil_of_length_eq_zero (by omega),
          List.eq_nil_of_length_eq_zero (by omega)⟩
      exact ⟨[], by simp [hu.2.1]⟩
  | cons d h' ih =>
    intro n
    simp only [containsSub, Bool.or_eq_true, startsWith_iff, ih]
    constructor
    · rintro (⟨t, ht⟩ | ⟨u, v, huv⟩)
      · exact ⟨[], t, by simp [ht]⟩
      · exact ⟨d :: u, v, by simp [huv]⟩
    · rintro ⟨u, v, huv⟩
      cases u with
      | nil =>
        exact Or.inl ⟨v, by simpa using huv⟩
      | cons e u' =>
        simp only [List.cons_append, List.append_assoc] at huv
        obtain ⟨hde, hrest⟩ := List.cons.inj huv
        exact Or.inr ⟨u', v, by rw [hrest, List.append_assoc]⟩

theorem pctScan_iff (f : List Char → Bool) : ∀ t : List Char,
    pctScan f t = true ↔ ∃ k, f (t.drop k) = true := by
  intro t
  induction t with
  | nil =>
    simp only [pctScan, List.drop_nil]
    constructor
    · intro h; exact ⟨0, h⟩
    · rintro ⟨k, h⟩; exact h
  | cons d t2 ih =>
    simp only [pctScan, Bool.or_eq_true, ih]
    constructor
    · rintro (h | ⟨k, hk⟩)
      · exact ⟨0, by simpa using h⟩
      · exact ⟨k + 1, by simpa using hk⟩
    · rintro ⟨k, hk⟩
      cases k with
      | zero => exact Or.inl (by simpa using hk)
      | succ k => exact Or.inr ⟨k, by simpa using hk⟩

theorem likeMatch_pct (t p : List Char) :
    likeMatch ('%' :: p) t = true ↔ ∃ k, likeMatch p (t.drop k) = true := by
  simp only [likeMatch, if_pos rfl]
  exact pctScan_iff (likeMatch p) t

theorem likeMatch_plain : ∀ (q : List Char), (∀ c ∈ q, c ≠ '%' ∧ c ≠ '_') →
    ∀ t : List Char, (likeMatch (q ++ ['%']) t = true
      ↔ ∃ t1 t2, t = t1 ++ t2 ∧ t1.map lowerChar = q.map lowerChar) := by
  intro q
  induction q with
  | nil =>
    intro _ t
    have htrue : likeMatch ['%'] t = true := by
      rw [show (['%'] : List Char) = '%' :: [] from rfl, likeMatch_pct]
      exact ⟨t.length, by simp [likeMatch]⟩
    simp only [List.nil_append, htrue, List.map_nil, true_iff]
    exact ⟨[], t, rfl, by simp⟩
  | cons c q' ih =>
    intro hq t
    have hc := hq c (by simp)
    cases t with
    | nil =>
      simp only [List.cons_append, likeMatch, if_neg hc.1, if_neg hc.2,
        Bool.false_eq_true, false_iff]
      rintro ⟨t1, t2, ht, hm⟩
      have : t1 ≠ [] := by
        intro h
        subst h
        exact absurd hm.symm (by simp)
      obtain ⟨e, t1', rfl⟩ := List.exists_cons_of_ne_nil this
      exact absurd ht (by simp)
    | cons d t2 =>
      have hih := ih (fun x hx => hq x (by simp [hx])) t2
      constructor
      · intro h
        rw [List.cons_append] at h
        simp only [likeMatch, if_neg hc.1, if_neg hc.2, Bool.and_eq_true,
          decide_eq_true_eq] at h
        obtain ⟨hcd, h2⟩ := h
        obtain ⟨t1', t2', ht, hm⟩ := hih.mp h2
        exact ⟨d :: t1', t2', by simp [ht], by simp [hm, hcd]⟩
      · rintro ⟨t1, t2'', ht, hm⟩
        rw [List.cons_append]
        simp only [likeMatch, if_neg hc.1, if_neg hc.2, Bool.and_eq_true,
          decide_eq_true_eq]
        cases t1 with
        | nil => exact absurd hm.symm (by simp)
        | cons e t1' =>
          rw [List.cons_append] at ht
          obtain ⟨hde, hrest⟩ := List.cons.inj ht
          simp only [List.map_cons] at hm
          obtain ⟨hec, hm'⟩ := List.cons.inj hm
          subst hde
          exact ⟨hec.symm, hih.mpr ⟨t1', t2'', hrest, hm'⟩⟩

theorem likeMatch_contains : ∀ (q : List Char), (∀ c ∈ q, c ≠ '%' ∧ c ≠ '_') →
    ∀ t : List Char, (likeMatch ('%' :: (q ++ ['%'])) t = true
      ↔ ∃ u v, t.map lowerChar = u ++ q.map lowerChar ++ v) := by
  intro q hq t
  rw [likeMatch_pct]
  constructor
  · rintro ⟨k, hk⟩
    obtain ⟨t1, t2, ht, hm⟩ := (likeMatch_plain q hq (t.drop k)).mp hk
    refine ⟨(t.take k).map lowerChar, t2.map lowerChar, ?_⟩
    calc t.map lowerChar
        = ((t.take k) ++ (t.drop k)).map lowerChar := by rw [List.take_append_drop]
      _ = (t.take k).map lowerChar ++ (t1.map lowerChar ++ t2.map lowerChar) := by
          rw [List.map_append, ht, List.map_append]
      _ = (t.take k).map lowerChar ++ q.map lowerChar ++ t2.map lowerChar := by
          rw [hm, List.append_assoc]
  · rintro ⟨u, v, huv⟩
    refine ⟨u.length, ?_⟩
    apply (likeMatch_plain q hq (t.drop u.length)).mpr
    refine ⟨(t.drop u.length).take q.length, (t.drop u.length).drop q.length,
      (List.take_append_drop _ _).symm, ?_⟩
    have hmap : (t.drop u.length).map lowerChar = q.map lowerChar ++ v := by
      rw [List.map_drop, huv, List.append_assoc]
      exact List.drop_left u (q.map lowerChar ++ v)
    rw [List.map_take, hmap, ← List.length_map q lowerChar]
    exact List.take_left (q.map lowerChar) v

/-- C5 counterexample: the query text is interpolated unescaped into the
`ilike` pattern, so a `_` wildcard in the text matches any character: the
search for `"a_b"` returns a record whose content `"axb"` does not contain
`"a_b"` as a (case-insensitive) substring. -/
theorem claim_C5_counterexample :
    MessageRepository.search_messages
        [⟨"x", "s", "axb", some ⟨2025, 1, 1, 0, 0, 0, 0, Option.none⟩, "user", Option.none⟩]
        "s" "a_b" 10 0
      = [⟨"x", "s", "axb", some ⟨2025, 1, 1, 0, 0, 0, 0, Option.none⟩, "user", Option.none⟩]
    ∧ ¬ SubstringCI "a_b" "axb" := by
  constructor
  · decide
  · rintro ⟨u, v, h⟩
    have : containsSub (("a_b" : String).toList.map lowerChar)
        (("axb" : String).toList.map lowerChar) = true :=
      (containsSub_iff _ _).mpr ⟨u, v, h⟩
    exact absurd this (by decide)

/-- C5 (amended): for a query containing no `LIKE` wildcard (`%` or `_`),
`search_messages` returns exactly the slice `[O, O+L)` of the
timestamp-ordered records of the session whose content contains the query as
a case-insensitive substring; every returned record contains the query. -/
theorem claim_C5 (db : DB) (sid q : String) (L O : Nat)
    (hq : ∀ c ∈ q.toList, c ≠ '%' ∧ c ≠ '_') :
    MessageRepository.search_messages db sid q L O
      = (((orderByTs (db.filter (fun r => r.session_id == sid
          && containsSub (q.toList.map lowerChar)
               (r.content.toList.map lowerChar)))).drop O).take L)
    ∧ List.Sorted tsLe (MessageRepository.search_messages db sid q L O)
    ∧ (MessageRepository.search_messages db sid q L O).length
        = min L ((db.filter (fun r => r.session_id == sid
            && containsSub (q.toList.map lowerChar)
                 (r.content.toList.map lowerChar))).length - O)
    ∧ (∀ r ∈ MessageRepository.search_messages db sid q L O,
        SubstringCI q r.content ∧ r.session_id = sid) := by
  have hpt : ∀ r : MessageRec,
      likeMatch ('%' :: q.toList ++ ['%']) r.content.toList
        = containsSub (q.toList.map lowerChar) (r.content.toList.map lowerChar) := by
    intro r
    apply bool_eq_of_iff
    rw [List.cons_append, likeMatch_contains q.toList hq, containsSub_iff]
  have hfil : db.filter (fun r => r.session_id == sid
        && likeMatch ('%' :: q.toList ++ ['%']) r.content.toList)
      = db.filter (fun r => r.session_id == sid
        && containsSub (q.toList.map lowerChar) (r.content.toList.map lowerChar)) := by
    apply List.filter_congr
    intro r _
    rw [hpt r]
  have hs : MessageRepository.search_messages db sid q L O
      = (((orderByTs (db.filter (fun r => r.session_id == sid
          && containsSub (q.toList.map lowerChar)
               (r.content.toList.map lowerChar)))).drop O).take L) := by
    show (((orderByTs (db.filter _)).drop O).take L) = _
    rw [hfil]
  refine ⟨hs, ?_, ?_, ?_⟩
  · rw [hs]
    exact slice_sorted (orderByTs_sorted _) O L
  · rw [hs, slice_length, (orderByTs_perm _).length_eq]
  · intro r hr
    rw [hs] at hr
    have hr2 : r ∈ orderByTs (db.filter (fun r => r.session_id == sid
        && containsSub (q.toList.map lowerChar) (r.content.toList.map lowerChar))) :=
      ((List.take_sublist _ _).trans (List.drop_sublist _ _)).mem hr
    have hr3 := (orderByTs_perm _).mem_iff.mp hr2
    have hpred := List.of_mem_filter hr3
    simp only [Bool.and_eq_true, beq_iff_eq] at hpred
    exact ⟨(containsSub_iff _ _).mp hpred.2, hpred.1⟩

/-- C5 witness: the searched scenario of the spec, query `"texto"` against a
record containing `"Texto de Prueba"` (and the record is indeed returned). -/
theorem claim_C5_witness :
    MessageRepository.search_messages
        [⟨"x", "cs", "Texto de Prueba", some ⟨2025, 1, 1, 0, 0, 0, 0, Option.none⟩,
          "user", Option.none⟩] "cs" "texto" 10 0
      = (((orderByTs (List.filter (fun r => r.session_id == "cs"
          && containsSub (("texto" : String).toList.map lowerChar)
               (r.content.toList.map lowerChar))
          [⟨"x", "cs", "Texto de Prueba", some ⟨2025, 1, 1, 0, 0, 0, 0, Option.none⟩,
            "user", Option.none⟩])).drop 0).take 10)
    ∧ MessageRepository.search_messages
        [⟨"x", "cs", "Texto de Prueba", some ⟨2025, 1, 1, 0, 0, 0, 0, Option.none⟩,
          "user", Option.none⟩] "cs" "TEXTO" 10 0
      = [⟨"x", "cs", "Texto de Prueba", some ⟨2025, 1, 1, 0, 0, 0, 0, Option.none⟩,
          "user", Option.none⟩] :=
  ⟨(claim_C5 [⟨"x", "cs", "Texto de Prueba", some ⟨2025, 1, 1, 0, 0, 0, 0, Option.none⟩,
      "user", Option.none⟩] "cs" "texto" 10 0 (by decide)).1, by decide⟩

/-- C6: a query whose stripped length is below 2 (including the empty and
whitespace-only queries) is rejected with the invalid-query error for every
database state — so no store access can influence the outcome — while a query
of stripped length at least 2 delegates to the repository search with the
same arguments. -/
theorem claim_C6 (sid q : String) (L O : Nat) :
    ((pyStrip q).length < 2 →
      ∀ db : DB, MessageService.search_messages db sid q L O = .error .invalidQuery)
    ∧ (2 ≤ (pyStrip q).length →
      ∀ db : DB, MessageService.search_messages db sid q L O
        = .ok (MessageRepository.search_messages db sid q L O)) := by
  constructor
  · intro h db
    rw [MessageService.search_messages, if_pos (Or.inr h)]
  · intro h db
    rw [MessageService.search_messages, if_neg]
    rintro (h1 | h2)
    · subst h1
      have : pyStrip "" = "" := rfl
      rw [this] at h
      simp at h
    · omega

/-- C6 witness at concrete inputs: a whitespace-padded one-character query is
rejected, a two-character query is delegated. -/
theorem claim_C6_witness :
    MessageService.search_messages [] "sess" " a " 10 0 = .error .invalidQuery
    ∧ MessageService.search_messages [] "sess" "ab" 10 0
      = .ok (MessageRepository.search_messages [] "sess" "ab" 10 0) :=
  ⟨(claim_C6 "sess" " a " 10 0).1 (by decide) [],
   (claim_C6 "sess" "ab" 10 0).2 (by decide) []⟩

/-- C7: a submission whose sender is neither `"user"` nor `"system"` is
rejected by the `MessageIn` validator before persistence: the save path
returns a validation error and leaves the database unchanged, so no record
with such a sender is ever stored. -/
theorem claim_C7 (now : DateTime) (db : DB) (m : MsgInput)
    (h : m.sender ≠ "user" ∧ m.sender ≠ "system") :
    (create_message now db m).1 = .error .validationError
    ∧ (create_message now db m).2 = db := by
  have hv : validSender m.sender = false := by
    simp [validSender, h.1, h.2]
  rw [create_message, if_neg (by simp [hv])]
  exact ⟨rfl, rfl⟩

/-- C7 witness: the sender `"robot"` of the repository's own tests. -/
theorem claim_C7_witness :
    (create_message ⟨2025, 1, 1, 0, 0, 0, 0, Option.none⟩ []
        ⟨"m9", "s9", "Hola", .dt ⟨2025, 1, 1, 0, 0, 0, 0, Option.none⟩, "robot"⟩).1
      = .error .validationError
    ∧ (create_message ⟨2025, 1, 1, 0, 0, 0, 0, Option.none⟩ []
        ⟨"m9", "s9", "Hola", .dt ⟨2025, 1, 1, 0, 0, 0, 0, Option.none⟩, "robot"⟩).2
      = [] :=
  claim_C7 ⟨2025, 1, 1, 0, 0, 0, 0, Option.none⟩ []
    ⟨"m9", "s9", "Hola", .dt ⟨2025, 1, 1, 0, 0, 0, 0, Option.none⟩, "robot"⟩
    (by decide)

/-! ## Helper lemmas: Z-suffix replacement -/

theorem replaceZ_no_z {a : List Char} (h : ∀ c ∈ a, c ≠ 'Z') : replaceZ a = a := by
  induction a with
  | nil => rfl
  | cons c a ih =>
    have hc : c ≠ 'Z' := h c (by simp)
    simp only [replaceZ, List.flatMap_cons, if_neg hc]
    have := ih (fun x hx => h x (by simp [hx]))
    simp only [replaceZ] at this
    rw [this]
    rfl

theorem replaceZ_append_z {a : List Char} (h : ∀ c ∈ a, c ≠ 'Z') :
    replaceZ (a ++ ['Z']) = a ++ String.toList "+00:00" := by
  have h1 : replaceZ (a ++ ['Z']) = replaceZ a ++ replaceZ ['Z'] := by
    simp [replaceZ]
  rw [h1, replaceZ_no_z h]
  rfl

theorem parse_iso_str (s : String) : parse_iso_to_dt (.str s)
    = (match fromisoformat (String.mk
        (if s.toList ≠ [] ∧ s.toList.getLast? = some 'Z' then replaceZ s.toList
         else s.toList)) with
       | some d => .ok (some d)
       | Option.none => .error ()) := rfl

/-- C8: `_parse_iso_to_dt` accepts a structured time value unchanged, and an
ISO-8601 string with a (single) trailing `Z` is parsed to the same value as
the same string with the `Z` replaced by an explicit `+00:00` offset; in
particular the test timestamp `"2025-09-23T14:30:00Z"` parses equal to
`"2025-09-23T14:30:00+00:00"`, namely 14:30:00 UTC on 2025-09-23. -/
theorem claim_C8 :
    (∀ d : DateTime, parse_iso_to_dt (.dt d) = .ok (some d))
    ∧ (∀ s : String, s.toList.getLast? = some 'Z' →
        (∀ c ∈ s.toList.dropLast, c ≠ 'Z') →
        parse_iso_to_dt (.str s)
          = parse_iso_to_dt (.str (String.mk (s.toList.dropLast ++ "+00:00".toList))))
    ∧ parse_iso_to_dt (.str "2025-09-23T14:30:00Z")
        = parse_iso_to_dt (.str "2025-09-23T14:30:00+00:00")
    ∧ parse_iso_to_dt (.str "2025-09-23T14:30:00Z")
        = .ok (some ⟨2025, 9, 23, 14, 30, 0, 0, some 0⟩) := by
  refine ⟨fun d => rfl, ?_, by rfl, by rfl⟩
  intro s hz hno
  have hne : s.toList ≠ [] := by
    intro h
    rw [h] at hz
    exact absurd hz (by simp)
  have hdecomp : s.toList = s.toList.dropLast ++ ['Z'] := by
    have h1 := List.dropLast_append_getLast hne
    have h2 : s.toList.getLast hne = 'Z' := by
      have := List.getLast?_eq_getLast s.toList hne
      rw [this] at hz
      exact Option.some.inj hz
    calc s.toList = s.toList.dropLast ++ [s.toList.getLast hne] := h1.symm
      _ = s.toList.dropLast ++ ['Z'] := by rw [h2]
  have hrz : replaceZ s.toList = s.toList.dropLast ++ String.toList "+00:00" := by
    rw [hdecomp, replaceZ_append_z hno]
    rw [← hdecomp]
  have hrhs_list : (String.mk (s.toList.dropLast ++ "+00:00".toList)).toList
      = s.toList.dropLast ++ "+00:00".toList := toList_mk _
  have hrhs_last : (s.toList.dropLast ++ ("+00:00" : String).toList).getLast?
      = some '0' := by
    rw [List.getLast?_append]
    rfl
  rw [parse_iso_str s, parse_iso_str (String.mk (s.toList.dropLast ++ "+00:00".toList))]
  rw [if_pos ⟨hne, hz⟩, hrz, hrhs_list]
  rw [if_neg]
  rintro ⟨_, hlast⟩
  rw [hrhs_last] at hlast
  exact absurd (Option.some.inj hlast) (by decide)

/-- C8 witness: the second clause applied to the test timestamp. -/
theorem claim_C8_witness :
    parse_iso_to_dt (.str "2025-09-23T14:30:00Z")
      = parse_iso_to_dt
          (.str (String.mk (("2025-09-23T14:30:00Z" : String).toList.dropLast
            ++ "+00:00".toList))) :=
  claim_C8.2.1 "2025-09-23T14:30:00Z" (by decide) (by decide)

/-- C9: the persisted row consists of exactly the six `MessageORM` columns;
the metadata computed by the processor is not persisted: saving two processed
messages that differ only in their metadata gives identical outcomes and
states, and the stored row is built from the six fields alone, with the
database extended by exactly that row. -/
theorem claim_C9 (db : DB) (p : ProcessedMsg) :
    (∀ md : Metadata,
      MessageRepository.save db { p with metadata := md } = MessageRepository.save db p)
    ∧ (∀ (r : MessageRec) (db' : DB),
        MessageRepository.save db p = (.ok r, db') →
        r.message_id = p.message_id ∧ r.session_id = p.session_id
          ∧ r.content = p.content ∧ parse_iso_to_dt p.timestamp = .ok r.timestamp
          ∧ r.sender = p.sender ∧ parse_iso_to_dt p.processed_at = .ok r.processed_at
          ∧ db' = db ++ [r]) := by
  constructor
  · intro md
    rfl
  · intro r db' h
    rw [MessageRepository.save] at h
    cases ht : parse_iso_to_dt p.timestamp with
    | error e => rw [ht] at h; cases hp : parse_iso_to_dt p.processed_at <;>
        simp [hp] at h
    | ok ts =>
      cases hp : parse_iso_to_dt p.processed_at with
      | error e => rw [ht, hp] at h; simp at h
      | ok pa =>
        simp only [ht, hp] at h
        by_cases hdup : db.any (fun x => x.message_id == p.message_id)
        · rw [if_pos hdup] at h
          exact absurd (congrArg Prod.fst h) (by simp)
        · rw [if_neg hdup] at h
          have h1 := congrArg Prod.fst h
          have h2 := congrArg Prod.snd h
          simp only at h1 h2
          have hr : (⟨p.message_id, p.session_id, p.content, ts, p.sender, pa⟩
              : MessageRec) = r := Except.ok.inj h1
          subst hr
          exact ⟨rfl, rfl, rfl, rfl, rfl, rfl, h2.symm⟩

/-- C9 witness at a concrete processed message carrying metadata. -/
theorem claim_C9_witness :
    MessageRepository.save []
        ⟨"m1", "s1", "Hola *** ***", .dt ⟨2025, 1, 1, 0, 0, 0, 0, Option.none⟩, "user",
          ⟨17, ["idiota", "tonto"]⟩, .dt ⟨2025, 1, 1, 1, 0, 0, 0, Option.none⟩⟩
      = (.ok ⟨"m1", "s1", "Hola *** ***", some ⟨2025, 1, 1, 0, 0, 0, 0, Option.none⟩,
          "user", some ⟨2025, 1, 1, 1, 0, 0, 0, Option.none⟩⟩,
         [⟨"m1", "s1", "Hola *** ***", some ⟨2025, 1, 1, 0, 0, 0, 0, Option.none⟩,
          "user", some ⟨2025, 1, 1, 1, 0, 0, 0, Option.none⟩⟩])
    ∧ ([] : DB) ++ [(⟨"m1", "s1", "Hola *** ***",
          some ⟨2025, 1, 1, 0, 0, 0, 0, Option.none⟩, "user",
          some ⟨2025, 1, 1, 1, 0, 0, 0, Option.none⟩⟩ : MessageRec)]
      = [⟨"m1", "s1", "Hola *** ***", some ⟨2025, 1, 1, 0, 0, 0, 0, Option.none⟩,
          "user", some ⟨2025, 1, 1, 1, 0, 0, 0, Option.none⟩⟩] := by
  refine ⟨by rfl, ?_⟩
  have h := (claim_C9 []
    ⟨"m1", "s1", "Hola *** ***", .dt ⟨2025, 1, 1, 0, 0, 0, 0, Option.none⟩, "user",
      ⟨17, ["idiota", "tonto"]⟩, .dt ⟨2025, 1, 1, 1, 0, 0, 0, Option.none⟩⟩).2
    ⟨"m1", "s1", "Hola *** ***", some ⟨2025, 1, 1, 0, 0, 0, 0, Option.none⟩, "user",
      some ⟨2025, 1, 1, 1, 0, 0, 0, Option.none⟩⟩
    [⟨"m1", "s1", "Hola *** ***", some ⟨2025, 1, 1, 0, 0, 0, 0, Option.none⟩, "user",
      some ⟨2025, 1, 1, 1, 0, 0, 0, Option.none⟩⟩] (by rfl)
  exact h.2.2.2.2.2.2.symm

end MsgApi
